import Mathlib

/- Verification development for src/app.py, the CSV Merger and Analyzer
   pipeline.  Each stage of main() is embedded as a pure function over
   explicit tables.  Numeric cells are exact rationals, with none playing
   the role of the pandas null (NaN) produced by pd.to_numeric with
   errors=coerce; string columns are compared in code-point lexicographic
   order, which is how Python and pandas compare str values.  The stable
   multi-column sort of sort_values (np.lexsort) is modelled by sorting
   position-annotated rows under the total lexicographic order whose last
   component is the original row position. -/

/-- Record is one row of the merged table, read through the fixed column
contract of app.py: string fields Keyword, Domain, Competitor URL and
nullable numeric fields Search Volume, Keyword Difficulty, Domain
Position, Competitor Position (none = null / failed coercion). -/
structure Record where
  keyword : String
  domain : String
  competitorURL : String
  searchVolume : Option ℚ
  keywordDifficulty : Option ℚ
  domainPosition : Option ℚ
  competitorPosition : Option ℚ
  deriving DecidableEq

/-- OutRecord is one row of the final table built at lines 134-142 of
app.py. -/
structure OutRecord where
  competitorURL : String
  topic : String
  keywords : String
  searchVolume : ℚ
  keywordDifficulty : Option ℚ
  domainsInfo : String
  creationOpt : String
  deriving DecidableEq

/-- Cell is one raw CSV cell as parsed by pd.read_csv: a string, a number,
or null. -/
inductive Cell
  | null
  | str (s : String)
  | num (q : ℚ)
  deriving DecidableEq

/-- RawRow is one raw CSV row: a finite column-name-to-cell association
list. -/
abbrev RawRow := List (String × Cell)

/-- RawTable is one parsed CSV file: its column list and its rows. -/
structure RawTable where
  cols : List String
  rows : List RawRow
  deriving DecidableEq

/-- PipeError enumerates the three distinct abort paths of main(): the
missing-required-columns report of line 47, the missing Competitor
Position report of line 78, and the ValueError that idxmax raises at line
115 when every Search Volume in a group is null. -/
inductive PipeError
  | missingColumns (cols : List String)
  | missingCompetitorPosition
  | svAllNull
  deriving DecidableEq

/-- strKey s is the list of Unicode code points of s; comparing these
lists lexicographically is exactly how Python compares str values, hence
how sort_values orders a string column. -/
def strKey (s : String) : List ℕ := s.data.map (fun c => c.toNat)

/-- strLe is the code-point lexicographic order on strings. -/
def strLe (a b : String) : Prop := strKey a ≤ strKey b

instance : DecidableRel strLe :=
  fun a b => inferInstanceAs (Decidable (strKey a ≤ strKey b))

/-- dkKey is the sort key of Step 3 (line 55): sort_values on the column
pair [Domain, Keyword], both ascending, is the stable np.lexsort, i.e. the
total lexicographic order on (Domain, Keyword, original row position). -/
def dkKey (p : ℕ × Record) : Lex (List ℕ × Lex (List ℕ × ℕ)) :=
  toLex (strKey p.2.domain, toLex (strKey p.2.keyword, p.1))

/-- rDK orders position-annotated rows by dkKey. -/
def rDK (p q : ℕ × Record) : Prop := dkKey p ≤ dkKey q

instance : DecidableRel rDK :=
  fun p q => inferInstanceAs (Decidable (dkKey p ≤ dkKey q))

/-- sortDomainKeyword is line 55 of app.py on position-annotated rows. -/
def sortDomainKeyword (l : List Record) : List (ℕ × Record) :=
  List.insertionSort rDK l.enum

/-- keepFirstBy key l seen scans l in order and keeps an element exactly
when its key was not seen before: the semantics of
drop_duplicates(subset=[k], keep=first). -/
def keepFirstBy {α : Type} (key : α → String) : List α → List String → List α
  | [], _ => []
  | x :: xs, seen =>
    if key x ∈ seen then keepFirstBy key xs seen
    else x :: keepFirstBy key xs (key x :: seen)

/-- dedupPairs is lines 55-57 of app.py before discarding positions. -/
def dedupPairs (l : List Record) : List (ℕ × Record) :=
  keepFirstBy (fun p => p.2.keyword) (sortDomainKeyword l) []

/-- dedupStage is Step 3 of main() (lines 55-57): sort by (Domain,
Keyword) ascending, then drop_duplicates on Keyword keeping the first
occurrence. -/
def dedupStage (l : List Record) : List Record :=
  (dedupPairs l).map Prod.snd

/-- svKey is the sort key of Step 4 (line 65): sort_values by Search
Volume descending with the default na_position=last; descending order on
values is ascending order on negated values, and nulls compare after
every number. -/
def svKey (r : Record) : Lex (ℕ × ℚ) :=
  match r.searchVolume with
  | some v => toLex (0, -v)
  | none => toLex (1, 0)

/-- rSV orders rows by svKey. -/
def rSV (a b : Record) : Prop := svKey a ≤ svKey b

instance : DecidableRel rSV :=
  fun a b => inferInstanceAs (Decidable (svKey a ≤ svKey b))

/-- sort_search_volume is line 65 of app.py. -/
def sort_search_volume (l : List Record) : List Record :=
  List.insertionSort rSV l

/-- gtB is the pandas comparison a > b on nullable numerics: any
comparison against NaN yields False. -/
def gtB : Option ℚ → Option ℚ → Bool
  | some a, some b => decide (b < a)
  | _, _ => false

/-- neZeroB is the pandas comparison a != 0 on nullable numerics: NaN != 0
evaluates to True. -/
def neZeroB : Option ℚ → Bool
  | some a => decide (a ≠ 0)
  | none => true

/-- condRow mirrors the mask of line 85: (df[Domain Position] >
df[Competitor Position]) & (df[Domain Position] != 0). -/
def condRow (r : Record) : Bool :=
  gtB r.domainPosition r.competitorPosition && neZeroB r.domainPosition

/-- filterStage is Steps 4-5 of main() on already-coerced rows: sort by
Search Volume descending (line 65), then keep the rows where the mask of
line 85 is false (line 86). -/
def filterStage (l : List Record) : List Record :=
  (sort_search_volume l).filter (fun r => !condRow r)

/-- sortedKeys key l lists the distinct keys of l in ascending order: the
iteration keys of groupby (line 109), whose default is sort=True. -/
def sortedKeys {α : Type} (key : α → String) (l : List α) : List String :=
  List.insertionSort strLe ((l.map key).dedup)

/-- groupPairs key l is groupby: each distinct key in ascending order
paired with the rows of l carrying it, in table order. -/
def groupPairs {α : Type} (key : α → String) (l : List α) : List (String × List α) :=
  (sortedKeys key l).map (fun k => (k, l.filter (fun x => decide (key x = k))))

/-- idxmaxSV is group[Search Volume].idxmax() followed by .loc (line 115):
the first row whose Search Volume equals the maximum over non-null
values, and none when every value is null, where pandas raises
ValueError. -/
def idxmaxSV (g : List Record) : Option Record :=
  match (g.filterMap (fun r => r.searchVolume)).max? with
  | none => none
  | some m => g.find? (fun r => decide (r.searchVolume = some m))

/-- dpPosB is the row predicate Domain Position > 0 of line 100 (false on
null). -/
def dpPosB (r : Record) : Bool :=
  match r.domainPosition with
  | some dp => decide (0 < dp)
  | none => false

/-- matchRow is the row mask of lines 98-100 of get_domain_info: same
Keyword and Domain as the top row, and Domain Position > 0. -/
def matchRow (top r : Record) : Bool :=
  decide (r.keyword = top.keyword) && decide (r.domain = top.domain) && dpPosB r

/-- dpText renders the Domain Position exactly where line 103 interpolates
it (the filter guarantees it is non-null there). -/
def dpText (r : Record) : String :=
  match r.domainPosition with
  | some q => toString q
  | none => ("nan")

/-- fmtRow is the f-string of line 103: Keyword (Domain - Domain
Position). -/
def fmtRow (r : Record) : String :=
  r.keyword ++ (" (") ++ r.domain ++ (" - ") ++ dpText r ++ (")")

/-- get_domain_info is the helper of lines 95-106: scan the whole table
passed in (main passes filtered_df) for rows matching the top row, format
each, and join with a comma separator; empty string when there is no
match. -/
def get_domain_info (top : Record) (tbl : List Record) : String :=
  let ranked := tbl.filter (matchRow top)
  if ranked.isEmpty then ("")
  else String.intercalate (", ") (ranked.map fmtRow)

/-- roundHalfEven is the rounding rule of the Python built-in round:
nearest integer, ties to the even integer. -/
def roundHalfEven (q : ℚ) : ℤ :=
  let f : ℤ := ⌊q⌋
  if q - f < 1/2 then f
  else if 1/2 < q - f then f + 1
  else if Even f then f else f + 1

/-- pyRound2 is round(x, 2) of line 139 on exact rationals. -/
def pyRound2 (q : ℚ) : ℚ := (roundHalfEven (q * 100) : ℚ) / 100

/-- mkOut builds the final_rows entry of lines 113-142 for one group g of
the filtered table tbl, given the top-search-volume row already found. -/
def mkOut (tbl : List Record) (url : String) (g : List Record) (top : Record) : OutRecord :=
  let info := get_domain_info top tbl
  let kds := g.filterMap (fun r => r.keywordDifficulty)
  { competitorURL := url
    topic := top.keyword
    keywords := String.intercalate (", ") ((sort_search_volume g).map (fun r => r.keyword))
    searchVolume := (g.map (fun r => r.searchVolume.getD 0)).sum
    keywordDifficulty :=
      if kds.isEmpty then none else some (pyRound2 (kds.sum / (kds.length : ℚ)))
    domainsInfo := info
    creationOpt := if info = "" then ("Creation") else ("Optimization") }

/-- aggGroup is one iteration of the loop at lines 113-142: idxmax may
raise when every Search Volume of the group is null; otherwise the output
row is built. -/
def aggGroup (tbl : List Record) (url : String) (g : List Record) : Except PipeError OutRecord :=
  match idxmaxSV g with
  | none => Except.error PipeError.svAllNull
  | some top => Except.ok (mkOut tbl url g top)

/-- collectGroups runs the group loop in order, stopping at the first
failing group exactly as the raised ValueError aborts the run. -/
def collectGroups (tbl : List Record) : List (String × List Record) → Except PipeError (List OutRecord)
  | [] => Except.ok []
  | (k, g) :: rest =>
    match aggGroup tbl k g with
    | Except.error e => Except.error e
    | Except.ok o =>
      match collectGroups tbl rest with
      | Except.error e => Except.error e
      | Except.ok os => Except.ok (o :: os)

/-- dropDupURL is line 147: drop_duplicates(subset=[Competitor URL]) on
the final table, keeping the first occurrence. -/
def dropDupURL (l : List OutRecord) : List OutRecord :=
  keepFirstBy (fun o => o.competitorURL) l []

/-- aggregateAll is Step 6 of main() (lines 109-147): group the filtered
table by Competitor URL, build one output row per group, then apply the
trailing deduplication by Competitor URL. -/
def aggregateAll (l : List Record) : Except PipeError (List OutRecord) :=
  match collectGroups l (groupPairs (fun r => r.competitorURL) l) with
  | Except.ok rows => Except.ok (dropDupURL rows)
  | Except.error e => Except.error e

/-- processRecords chains the typed stages of main() in program order:
Step 3 deduplication, Steps 4-5 sorting and filtering, Step 6
aggregation. -/
def processRecords (l : List Record) : Except PipeError (List OutRecord) :=
  aggregateAll (filterStage (dedupStage l))

/-- getCell reads one named cell of a raw row; a column absent from the
row reads as null, as pd.concat fills missing columns with NaN. -/
def getCell (r : RawRow) (c : String) : Cell :=
  match r.find? (fun p => decide (p.1 = c)) with
  | some p => p.2
  | none => Cell.null

/-- unionCols is the outer-join column union of pd.concat: all columns in
order of first appearance. -/
def unionCols (ts : List RawTable) : List String :=
  ts.foldl (fun acc t => acc ++ t.cols.filter (fun c => decide (c ∉ acc))) []

/-- concatTables is line 35: pd.concat(csv_list, ignore_index=True),
stacking all rows in input order under the union of the columns. -/
def concatTables (ts : List RawTable) : RawTable :=
  { cols := unionCols ts
    rows := (ts.map (fun t => t.rows)).flatten }

/-- cellStr reads a cell as the string pandas would show in an object
column (only string cells occur in the string columns of the contract). -/
def cellStr : Cell → String
  | Cell.str s => s
  | Cell.num q => toString q
  | Cell.null => ("")

/-- cellNum is pd.to_numeric(errors=coerce) on one cell: numbers pass
through and anything else becomes null (lines 64, 81, 82). -/
def cellNum : Cell → Option ℚ
  | Cell.num q => some q
  | _ => none

/-- toRecord reads one merged row into the fixed column contract. -/
def toRecord (r : RawRow) : Record :=
  { keyword := cellStr (getCell r ("Keyword"))
    domain := cellStr (getCell r ("Domain"))
    competitorURL := cellStr (getCell r ("Competitor URL"))
    searchVolume := cellNum (getCell r ("Search Volume"))
    keywordDifficulty := cellNum (getCell r ("Keyword Difficulty"))
    domainPosition := cellNum (getCell r ("Domain Position"))
    competitorPosition := cellNum (getCell r ("Competitor Position")) }

/-- required_columns is the list of line 44, checked by the first
validation gate; note that Competitor Position is not in it. -/
def required_columns : List String :=
  ["Keyword", "Search Volume", "Keyword Difficulty", "Domain", "Domain Position", "Competitor URL"]

/-- missingOf is line 45: the required columns absent from the merged
table, in contract order. -/
def missingOf (ts : List RawTable) : List String :=
  required_columns.filter (fun c => decide (c ∉ (concatTables ts).cols))

/-- runPipeline is main() from the merge of line 35 to the final table:
merge, first validation gate (lines 44-48), the Competitor Position gate
of lines 77-79 (the intervening Steps 3-4 cannot fail), and the typed
stages.  Each error constructor carries or names its own distinct
report. -/
def runPipeline (ts : List RawTable) : Except PipeError (List OutRecord) :=
  if (missingOf ts).isEmpty then
    if ("Competitor Position") ∈ (concatTables ts).cols then
      processRecords ((concatTables ts).rows.map toRecord)
    else Except.error PipeError.missingCompetitorPosition
  else Except.error (PipeError.missingColumns (missingOf ts))

/-- wRec1 is a sample row used to evaluate the stage functions on concrete
input: it survives the filter (Domain Position 2 is at most Competitor
Position 5) and its Domain Position is positive. -/
def wRec1 : Record :=
  { keyword := ("alpha")
    domain := ("a.com")
    competitorURL := ("u.com/x")
    searchVolume := some 100
    keywordDifficulty := none
    domainPosition := some 2
    competitorPosition := some 5 }

/-- wOut1 is the output row the Aggregator produces from the one-row table
[wRec1]. -/
def wOut1 : OutRecord :=
  { competitorURL := ("u.com/x")
    topic := ("alpha")
    keywords := ("alpha")
    searchVolume := 100
    keywordDifficulty := none
    domainsInfo := ("alpha (a.com - 2)")
    creationOpt := ("Optimization") }

/-- rowNullSV is a raw row whose Search Volume cell fails numeric coercion,
so its whole group has a null Search Volume. -/
def rowNullSV : RawRow :=
  [("Keyword", Cell.str "kw"), ("Search Volume", Cell.str "n/a"),
   ("Keyword Difficulty", Cell.null), ("Domain", Cell.str "d.com"),
   ("Domain Position", Cell.null), ("Competitor URL", Cell.str "c.com/x"),
   ("Competitor Position", Cell.num 1)]

/-- tblNullSV wraps rowNullSV as a full-schema one-row input table. -/
def tblNullSV : RawTable :=
  { cols := ["Keyword", "Search Volume", "Keyword Difficulty", "Domain",
             "Domain Position", "Competitor URL", "Competitor Position"]
    rows := [rowNullSV] }

/-- wRow1 is a raw row having only a Keyword column. -/
def wRow1 : RawRow := [("Keyword", Cell.str "k")]

/-- wT1 is a one-column, one-row input table. -/
def wT1 : RawTable := { cols := ["Keyword"], rows := [wRow1] }

/-- wT2 is a one-row input table with a column absent from wT1. -/
def wT2 : RawTable :=
  { cols := ["Domain"], rows := [[("Domain", Cell.str "d.com")]] }

/-- wMissT is an input table missing five of the six required columns. -/
def wMissT : RawTable := { cols := ["Keyword"], rows := [] }

/-- wNoCP is an input table with all six required columns but no
Competitor Position column. -/
def wNoCP : RawTable :=
  { cols := ["Keyword", "Search Volume", "Keyword Difficulty", "Domain",
             "Domain Position", "Competitor URL"]
    rows := [] }

/-- strKey is injective: code-point lists determine the string. -/
theorem strKey_injective : Function.Injective strKey := by
  intro a b h
  have hinj : Function.Injective (fun c : Char => c.toNat) := by
    intro c d hcd
    have h1 : Char.ofNat c.toNat = Char.ofNat d.toNat := congrArg Char.ofNat hcd
    rwa [Char.ofNat_toNat, Char.ofNat_toNat] at h1
  exact String.ext (List.map_injective_iff.mpr hinj h)

/-- keepFirstBy only emits elements whose key is not in seen. -/
theorem keepFirstBy_not_seen {α : Type} (key : α → String) (l : List α) :
    ∀ (seen : List String), ∀ x ∈ keepFirstBy key l seen, key x ∉ seen := by
  induction l with
  | nil => intro seen x hx; simp [keepFirstBy] at hx
  | cons y ys ih =>
    intro seen x hx
    by_cases h : key y ∈ seen
    · simp only [keepFirstBy, if_pos h] at hx
      exact ih seen x hx
    · simp only [keepFirstBy, if_neg h] at hx
      rcases List.mem_cons.mp hx with h1 | h1
      · subst h1; exact h
      · intro hc
        exact ih (key y :: seen) x h1 (List.mem_cons_of_mem _ hc)

/-- keepFirstBy returns a sublist of its input. -/
theorem keepFirstBy_sublist {α : Type} (key : α → String) (l : List α) :
    ∀ (seen : List String), (keepFirstBy key l seen).Sublist l := by
  induction l with
  | nil => intro seen; simp [keepFirstBy]
  | cons y ys ih =>
    intro seen
    by_cases h : key y ∈ seen
    · simp only [keepFirstBy, if_pos h]
      exact (ih seen).cons y
    · simp only [keepFirstBy, if_neg h]
      exact (ih (key y :: seen)).cons₂ y

/-- keepFirstBy leaves no two elements sharing a key. -/
theorem keepFirstBy_nodup {α : Type} (key : α → String) (l : List α) :
    ∀ (seen : List String), ((keepFirstBy key l seen).map key).Nodup := by
  induction l with
  | nil => intro seen; simp [keepFirstBy]
  | cons y ys ih =>
    intro seen
    by_cases h : key y ∈ seen
    · simp only [keepFirstBy, if_pos h]
      exact ih seen
    · simp only [keepFirstBy, if_neg h, List.map_cons, List.nodup_cons]
      constructor
      · intro hc
        rcases List.mem_map.mp hc with ⟨x, hx, hkx⟩
        exact keepFirstBy_not_seen key ys (key y :: seen) x hx
          (by rw [hkx]; exact List.mem_cons_self _ _)
      · exact ih (key y :: seen)

/-- keepFirstBy keeps at least one element per key not blocked by seen. -/
theorem keepFirstBy_exists {α : Type} (key : α → String) (l : List α) :
    ∀ (seen : List String) (k : String), k ∉ seen →
      ((∃ x ∈ keepFirstBy key l seen, key x = k) ↔ ∃ x ∈ l, key x = k) := by
  induction l with
  | nil => intro seen k _; simp [keepFirstBy]
  | cons y ys ih =>
    intro seen k hk
    by_cases h : key y ∈ seen
    · simp only [keepFirstBy, if_pos h]
      rw [ih seen k hk]
      constructor
      · rintro ⟨x, hx, he⟩
        exact ⟨x, List.mem_cons_of_mem _ hx, he⟩
      · rintro ⟨x, hx, he⟩
        rcases List.mem_cons.mp hx with h1 | h1
        · subst h1; exact absurd (he ▸ h) hk
        · exact ⟨x, h1, he⟩
    · simp only [keepFirstBy, if_neg h]
      by_cases hky : key y = k
      · constructor
        · intro _; exact ⟨y, List.mem_cons_self _ _, hky⟩
        · intro _; exact ⟨y, List.mem_cons_self _ _, hky⟩
      · have hk2 : k ∉ key y :: seen := by
          intro hc
          rcases List.mem_cons.mp hc with h1 | h1
          · exact hky h1.symm
          · exact hk h1
        constructor
        · rintro ⟨x, hx, he⟩
          rcases List.mem_cons.mp hx with h1 | h1
          · subst h1; exact absurd he hky
          · rcases (ih (key y :: seen) k hk2).mp ⟨x, h1, he⟩ with ⟨z, hz, hez⟩
            exact ⟨z, List.mem_cons_of_mem _ hz, hez⟩
        · rintro ⟨x, hx, he⟩
          rcases List.mem_cons.mp hx with h1 | h1
          · subst h1; exact absurd he hky
          · rcases (ih (key y :: seen) k hk2).mpr ⟨x, h1, he⟩ with ⟨z, hz, hez⟩
            exact ⟨z, List.mem_cons_of_mem _ hz, hez⟩

/-- On a list sorted by a reflexive relation, keepFirstBy keeps, for each
key, an element below every element of that key. -/
theorem keepFirstBy_min {α : Type} (key : α → String) (P : α → α → Prop)
    (hrefl : ∀ x, P x x) (l : List α) :
    ∀ (seen : List String), l.Pairwise P →
      ∀ p ∈ keepFirstBy key l seen, ∀ q ∈ l, key q = key p → P p q := by
  induction l with
  | nil => intro seen _ p hp; simp [keepFirstBy] at hp
  | cons y ys ih =>
    intro seen hpw p hp q hq hkq
    have hpw2 := List.pairwise_cons.mp hpw
    by_cases h : key y ∈ seen
    · simp only [keepFirstBy, if_pos h] at hp
      have hpns := keepFirstBy_not_seen key ys seen p hp
      rcases List.mem_cons.mp hq with h1 | h1
      · exfalso; subst h1; exact hpns (hkq ▸ h)
      · exact ih seen hpw2.2 p hp q h1 hkq
    · simp only [keepFirstBy, if_neg h] at hp
      rcases List.mem_cons.mp hp with h1 | h1
      · subst h1
        rcases List.mem_cons.mp hq with h2 | h2
        · subst h2; exact hrefl _
        · exact hpw2.1 q h2
      · have hpns := keepFirstBy_not_seen key ys (key y :: seen) p h1
        rcases List.mem_cons.mp hq with h2 | h2
        · exfalso; subst h2
          exact hpns (by rw [← hkq]; exact List.mem_cons_self _ _)
        · exact ih (key y :: seen) hpw2.2 p h1 q h2 hkq

/-- When all keys are distinct and unseen, keepFirstBy changes nothing. -/
theorem keepFirstBy_eq_self {α : Type} (key : α → String) (l : List α) :
    ∀ (seen : List String), (l.map key).Nodup → (∀ x ∈ l, key x ∉ seen) →
      keepFirstBy key l seen = l := by
  induction l with
  | nil => intro seen _ _; simp [keepFirstBy]
  | cons y ys ih =>
    intro seen hnd hseen
    have hnd2 : (∀ x ∈ ys, ¬key x = key y) ∧ (List.map key ys).Nodup := by
      simpa using hnd
    have h : key y ∉ seen := hseen y (List.mem_cons_self _ _)
    simp only [keepFirstBy, if_neg h]
    congr 1
    apply ih (key y :: seen) hnd2.2
    intro x hx hc
    rcases List.mem_cons.mp hc with h1 | h1
    · exact hnd2.1 x hx h1
    · exact hseen x (List.mem_cons_of_mem _ hx) h1

/-- sortDomainKeyword is a permutation of the position-annotated table. -/
theorem sortDomainKeyword_perm (l : List Record) :
    (sortDomainKeyword l).Perm l.enum :=
  List.perm_insertionSort rDK l.enum

/-- sortDomainKeyword is sorted under rDK. -/
theorem sortDomainKeyword_sorted (l : List Record) :
    (sortDomainKeyword l).Pairwise rDK := by
  haveI : IsTotal (ℕ × Record) rDK := ⟨fun p q => le_total (dkKey p) (dkKey q)⟩
  haveI : IsTrans (ℕ × Record) rDK := ⟨fun _ _ _ h1 h2 => le_trans h1 h2⟩
  exact List.sorted_insertionSort rDK l.enum

/-- rDK unfolded to the lexicographic disjunction on (Domain, Keyword,
original position). -/
theorem rDK_iff (p q : ℕ × Record) :
    rDK p q ↔ strKey p.2.domain < strKey q.2.domain ∨
      (strKey p.2.domain = strKey q.2.domain ∧
        (strKey p.2.keyword < strKey q.2.keyword ∨
          (strKey p.2.keyword = strKey q.2.keyword ∧ p.1 ≤ q.1))) := by
  unfold rDK dkKey
  rw [Prod.Lex.le_iff (strKey p.2.domain, toLex (strKey p.2.keyword, p.1))
      (strKey q.2.domain, toLex (strKey q.2.keyword, q.1)),
    Prod.Lex.le_iff (strKey p.2.keyword, p.1) (strKey q.2.keyword, q.1)]

/-- C1: the Deduplicator first sorts by the key (Domain ascending, Keyword
ascending) under a stable total order whose ties are broken by original
position, then keeps only the first record of each distinct Keyword; the
kept pair for a keyword comes from the input, is the duplicate with
lexicographically smallest (Domain, Keyword) and, among equal keys,
earliest original position, every input keyword survives exactly once,
and the result is in the sorted order. -/
theorem dedup_first_per_keyword (l : List Record) :
    (∀ p ∈ dedupPairs l, p ∈ l.enum) ∧
    ((dedupStage l).map Record.keyword).Nodup ∧
    (∀ k : String, (∃ r ∈ dedupStage l, r.keyword = k) ↔ ∃ r ∈ l, r.keyword = k) ∧
    (∀ p ∈ dedupPairs l, ∀ q ∈ l.enum, q.2.keyword = p.2.keyword →
      strKey p.2.domain < strKey q.2.domain ∨ (p.2.domain = q.2.domain ∧ p.1 ≤ q.1)) ∧
    (dedupStage l).Pairwise
      (fun a b => strKey a.domain < strKey b.domain ∨
        (a.domain = b.domain ∧ strLe a.keyword b.keyword)) := by
  have hperm := sortDomainKeyword_perm l
  have hsorted := sortDomainKeyword_sorted l
  have hsub : (dedupPairs l).Sublist (sortDomainKeyword l) :=
    keepFirstBy_sublist _ _ []
  have henum : ∀ (k : String),
      (∃ p ∈ l.enum, p.2.keyword = k) ↔ (∃ r ∈ l, r.keyword = k) := by
    intro k
    constructor
    · rintro ⟨p, hp, he⟩
      refine ⟨p.2, ?_, he⟩
      rw [← List.enum_map_snd l]
      exact List.mem_map_of_mem _ hp
    · rintro ⟨r, hr, he⟩
      have h2 : r ∈ List.map Prod.snd l.enum := by
        rw [List.enum_map_snd]; exact hr
      rcases List.mem_map.mp h2 with ⟨p, hp, hpe⟩
      exact ⟨p, hp, by rw [hpe]; exact he⟩
  refine ⟨?_, ?_, ?_, ?_, ?_⟩
  · intro p hp
    exact hperm.subset (hsub.subset hp)
  · unfold dedupStage
    rw [List.map_map]
    exact keepFirstBy_nodup (fun p : ℕ × Record => p.2.keyword) _ []
  · intro k
    have h1 : (∃ r ∈ dedupStage l, r.keyword = k) ↔
        ∃ p ∈ dedupPairs l, p.2.keyword = k := by
      constructor
      · rintro ⟨r, hr, he⟩
        rcases List.mem_map.mp hr with ⟨p, hp, hpe⟩
        exact ⟨p, hp, by rw [hpe]; exact he⟩
      · rintro ⟨p, hp, he⟩
        exact ⟨p.2, List.mem_map_of_mem _ hp, he⟩
    have h2 : (∃ p ∈ dedupPairs l, p.2.keyword = k) ↔
        ∃ p ∈ sortDomainKeyword l, p.2.keyword = k :=
      keepFirstBy_exists (fun p : ℕ × Record => p.2.keyword)
        (sortDomainKeyword l) [] k (List.not_mem_nil k)
    have h3 : (∃ p ∈ sortDomainKeyword l, p.2.keyword = k) ↔
        ∃ p ∈ l.enum, p.2.keyword = k := by
      constructor
      · rintro ⟨p, hp, he⟩; exact ⟨p, hperm.subset hp, he⟩
      · rintro ⟨p, hp, he⟩; exact ⟨p, hperm.symm.subset hp, he⟩
    exact h1.trans (h2.trans (h3.trans (henum k)))
  · intro p hp q hq hk
    have hq2 : q ∈ sortDomainKeyword l := hperm.mem_iff.mpr hq
    have hmin := keepFirstBy_min (fun p : ℕ × Record => p.2.keyword) rDK
      (fun x => le_refl (dkKey x)) (sortDomainKeyword l) [] hsorted p hp q hq2 hk
    rcases (rDK_iff p q).mp hmin with h1 | ⟨h2, h3⟩
    · exact Or.inl h1
    · refine Or.inr ⟨strKey_injective h2, ?_⟩
      rcases h3 with h4 | ⟨_, h6⟩
      · rw [hk] at h4; exact absurd h4 (lt_irrefl _)
      · exact h6
  · have hpw : (dedupPairs l).Pairwise rDK := hsorted.sublist hsub
    unfold dedupStage
    rw [List.pairwise_map]
    refine hpw.imp ?_
    intro a b hab
    rcases (rDK_iff a b).mp hab with h1 | ⟨h2, h3⟩
    · exact Or.inl h1
    · refine Or.inr ⟨strKey_injective h2, ?_⟩
      unfold strLe
      rcases h3 with h4 | ⟨h5, _⟩
      · exact le_of_lt h4
      · exact le_of_eq h5

/-- sort_search_volume permutes the table. -/
theorem sort_search_volume_perm (l : List Record) :
    (sort_search_volume l).Perm l :=
  List.perm_insertionSort rSV l

/-- membership in the Ranker/Filter output. -/
theorem mem_filterStage (l : List Record) (r : Record) :
    r ∈ filterStage l ↔ r ∈ l ∧ condRow r = false := by
  unfold filterStage
  rw [List.mem_filter]
  constructor
  · rintro ⟨h1, h2⟩
    exact ⟨(sort_search_volume_perm l).subset h1, by simpa using h2⟩
  · rintro ⟨h1, h2⟩
    exact ⟨(sort_search_volume_perm l).symm.subset h1, by simpa using h2⟩

/-- condRow holds exactly on rows with both positions non-null, Domain
Position strictly greater than Competitor Position, and Domain Position
nonzero. -/
theorem condRow_iff (r : Record) :
    condRow r = true ↔ ∃ dp cp, r.domainPosition = some dp ∧
      r.competitorPosition = some cp ∧ cp < dp ∧ dp ≠ 0 := by
  unfold condRow gtB neZeroB
  rcases hdp : r.domainPosition with _ | dp <;>
    rcases hcp : r.competitorPosition with _ | cp <;>
      simp [hdp, hcp]

/-- C2: every record surviving Ranker/Filter satisfies Domain Position at
most Competitor Position, or Domain Position = 0, or a null operand; and a
record of the input is excluded exactly when both positions are non-null,
Domain Position exceeds Competitor Position and Domain Position is
nonzero, so a null operand never triggers exclusion. -/
theorem filter_soundness (l : List Record) (r : Record) :
    (r ∈ filterStage l →
      (∃ dp cp, r.domainPosition = some dp ∧ r.competitorPosition = some cp ∧ dp ≤ cp) ∨
        r.domainPosition = some 0 ∨ r.domainPosition = none ∨ r.competitorPosition = none) ∧
    (r ∈ l → (r ∈ filterStage l ↔
      ¬∃ dp cp, r.domainPosition = some dp ∧ r.competitorPosition = some cp ∧
        cp < dp ∧ dp ≠ 0)) := by
  constructor
  · intro hr
    have h2 := ((mem_filterStage l r).mp hr).2
    rcases hdp : r.domainPosition with _ | dp
    · exact Or.inr (Or.inr (Or.inl rfl))
    · rcases hcp : r.competitorPosition with _ | cp
      · exact Or.inr (Or.inr (Or.inr rfl))
      · have h3 : ¬(cp < dp ∧ dp ≠ 0) := by
          intro hconj
          have h4 : condRow r = true :=
            (condRow_iff r).mpr ⟨dp, cp, hdp, hcp, hconj.1, hconj.2⟩
          rw [h4] at h2
          exact Bool.noConfusion h2
        by_cases hz : dp = 0
        · exact Or.inr (Or.inl (by rw [hz]))
        · have h4 : ¬cp < dp := fun hlt => h3 ⟨hlt, hz⟩
          exact Or.inl ⟨dp, cp, rfl, rfl, le_of_not_lt h4⟩
  · intro hl
    rw [mem_filterStage]
    constructor
    · rintro ⟨_, h2⟩ hex
      rw [(condRow_iff r).mpr hex] at h2
      exact Bool.noConfusion h2
    · intro hnex
      refine ⟨hl, ?_⟩
      cases hcond : condRow r
      · rfl
      · exact absurd ((condRow_iff r).mp hcond) hnex

/-- witness for filter_soundness at the concrete row wRec1. -/
theorem filter_soundness_witness :
    ((∃ dp cp, wRec1.domainPosition = some dp ∧ wRec1.competitorPosition = some cp ∧ dp ≤ cp) ∨
      wRec1.domainPosition = some 0 ∨ wRec1.domainPosition = none ∨
        wRec1.competitorPosition = none) ∧
    (wRec1 ∈ filterStage [wRec1] ↔
      ¬∃ dp cp, wRec1.domainPosition = some dp ∧ wRec1.competitorPosition = some cp ∧
        cp < dp ∧ dp ≠ 0) :=
  ⟨(filter_soundness [wRec1] wRec1).1 (by decide),
   (filter_soundness [wRec1] wRec1).2 (by decide)⟩

/-- witness for dedup_first_per_keyword at the concrete table [wRec1]. -/
theorem dedup_first_per_keyword_witness :
    ((dedupStage [wRec1]).map Record.keyword).Nodup ∧
    (0, wRec1) ∈ ([wRec1] : List Record).enum ∧
    (strKey wRec1.domain < strKey wRec1.domain ∨
      (wRec1.domain = wRec1.domain ∧ (0 : ℕ) ≤ 0)) :=
  ⟨(dedup_first_per_keyword [wRec1]).2.1,
   (dedup_first_per_keyword [wRec1]).1 (0, wRec1) (by decide),
   (dedup_first_per_keyword [wRec1]).2.2.2.1 (0, wRec1) (by decide) (0, wRec1)
     (by decide) rfl⟩

/-- the group keys are pairwise distinct. -/
theorem sortedKeys_nodup {α : Type} (key : α → String) (l : List α) :
    (sortedKeys key l).Nodup :=
  ((List.perm_insertionSort strLe ((l.map key).dedup)).symm).nodup
    (List.nodup_dedup _)

/-- the group keys are in ascending order. -/
theorem sortedKeys_sorted {α : Type} (key : α → String) (l : List α) :
    (sortedKeys key l).Pairwise strLe := by
  haveI : IsTotal String strLe := ⟨fun a b => le_total (strKey a) (strKey b)⟩
  haveI : IsTrans String strLe := ⟨fun _ _ _ h1 h2 => le_trans h1 h2⟩
  exact List.sorted_insertionSort strLe _

/-- first components of groupPairs are the sorted keys. -/
theorem groupPairs_fst {α : Type} (key : α → String) (l : List α) :
    (groupPairs key l).map Prod.fst = sortedKeys key l := by
  unfold groupPairs
  rw [List.map_map]
  exact List.map_id _

/-- a member of groupPairs is a sorted key with its filtered group. -/
theorem mem_groupPairs {α : Type} (key : α → String) (l : List α)
    {kg : String × List α} (h : kg ∈ groupPairs key l) :
    kg.1 ∈ sortedKeys key l ∧ kg.2 = l.filter (fun x => decide (key x = kg.1)) := by
  rcases List.mem_map.mp h with ⟨k, hk, he⟩
  cases he
  exact ⟨hk, rfl⟩

/-- inversion for a successful aggGroup. -/
theorem aggGroup_ok {tbl : List Record} {k : String} {g : List Record} {o : OutRecord}
    (h : aggGroup tbl k g = Except.ok o) :
    ∃ top, idxmaxSV g = some top ∧ o = mkOut tbl k g top := by
  unfold aggGroup at h
  cases ht : idxmaxSV g with
  | none => rw [ht] at h; exact Except.noConfusion h
  | some top =>
    rw [ht] at h
    injection h with h2
    exact ⟨top, rfl, h2.symm⟩

/-- a successful collectGroups relates groups and output rows pointwise in
order. -/
theorem collectGroups_ok {tbl : List Record} :
    ∀ {gs : List (String × List Record)} {out : List OutRecord},
      collectGroups tbl gs = Except.ok out →
      List.Forall₂ (fun kg o => aggGroup tbl kg.1 kg.2 = Except.ok o) gs out := by
  intro gs
  induction gs with
  | nil =>
    intro out h
    have h2 : ([] : List OutRecord) = out := by
      simpa [collectGroups] using h
    rw [← h2]
    exact List.Forall₂.nil
  | cons kg rest ih =>
    intro out h
    obtain ⟨k, g⟩ := kg
    simp only [collectGroups] at h
    cases ha : aggGroup tbl k g with
    | error e => rw [ha] at h; exact Except.noConfusion h
    | ok o =>
      rw [ha] at h
      cases hr : collectGroups tbl rest with
      | error e => rw [hr] at h; exact Except.noConfusion h
      | ok os =>
        rw [hr] at h
        injection h with h2
        rw [← h2]
        exact List.Forall₂.cons ha (ih hr)

/-- each produced row carries its group key as Competitor URL. -/
theorem collectGroups_map_url {tbl : List Record} :
    ∀ {gs : List (String × List Record)} {out : List OutRecord},
      List.Forall₂ (fun kg o => aggGroup tbl kg.1 kg.2 = Except.ok o) gs out →
      out.map (fun o => o.competitorURL) = gs.map Prod.fst := by
  intro gs out h
  induction h with
  | nil => rfl
  | @cons kg o gs2 out2 hko _ ih =>
    rcases aggGroup_ok hko with ⟨top, _, he⟩
    simp only [List.map_cons, ih]
    congr 1
    rw [he]
    rfl

/-- right-hand members of a Forall₂ come from related left-hand ones. -/
theorem forallTwo_mem_right {α β : Type} {R : α → β → Prop} :
    ∀ {l1 : List α} {l2 : List β}, List.Forall₂ R l1 l2 →
      ∀ b ∈ l2, ∃ a ∈ l1, R a b := by
  intro l1 l2 h
  induction h with
  | nil => intro b hb; exact absurd hb (List.not_mem_nil b)
  | @cons a b l1b l2b hab _ ih =>
    intro c hc
    rcases List.mem_cons.mp hc with h1 | h1
    · subst h1; exact ⟨a, List.mem_cons_self _ _, hab⟩
    · rcases ih c h1 with ⟨a2, ha2, hr⟩
      exact ⟨a2, List.mem_cons_of_mem _ ha2, hr⟩

/-- inversion for a successful aggregateAll. -/
theorem aggregateAll_ok {l : List Record} {out : List OutRecord}
    (h : aggregateAll l = Except.ok out) :
    ∃ rows, collectGroups l (groupPairs (fun r => r.competitorURL) l) = Except.ok rows ∧
      out = dropDupURL rows := by
  unfold aggregateAll at h
  cases hc : collectGroups l (groupPairs (fun r => r.competitorURL) l) with
  | error e => rw [hc] at h; exact Except.noConfusion h
  | ok rows =>
    rw [hc] at h
    injection h with h2
    exact ⟨rows, rfl, h2.symm⟩

/-- structure of a successful aggregateAll: output URLs are the sorted
distinct URLs of the input, and every output row comes from its group. -/
theorem aggregateAll_ok_struct {l : List Record} {out : List OutRecord}
    (h : aggregateAll l = Except.ok out) :
    out.map (fun o => o.competitorURL) = sortedKeys (fun r => r.competitorURL) l ∧
    ∀ o ∈ out, ∃ kg ∈ groupPairs (fun r => r.competitorURL) l,
      aggGroup l kg.1 kg.2 = Except.ok o := by
  rcases aggregateAll_ok h with ⟨rows, hc, ho⟩
  have hf := collectGroups_ok hc
  have hurl : rows.map (fun o => o.competitorURL) =
      (groupPairs (fun r : Record => r.competitorURL) l).map Prod.fst :=
    collectGroups_map_url hf
  have hfst := groupPairs_fst (fun r : Record => r.competitorURL) l
  have hnd : (rows.map (fun o => o.competitorURL)).Nodup := by
    rw [hurl, hfst]; exact sortedKeys_nodup _ _
  have hdd : dropDupURL rows = rows :=
    keepFirstBy_eq_self (fun o : OutRecord => o.competitorURL) rows [] hnd
      (fun x _ => List.not_mem_nil _)
  rw [hdd] at ho
  subst ho
  exact ⟨by rw [hurl, hfst], fun o hoo => forallTwo_mem_right hf o hoo⟩

/-- filtering a key-distinct list for the key of a member yields exactly
that member. -/
theorem filter_eq_singleton_of_nodup {α : Type} (key : α → String) :
    ∀ {l : List α}, (l.map key).Nodup → ∀ {a : α}, a ∈ l →
      l.filter (fun x => decide (key x = key a)) = [a] := by
  intro l
  induction l with
  | nil => intro _ a ha; exact absurd ha (List.not_mem_nil a)
  | cons y ys ih =>
    intro hnd a ha
    have hnd2 : (∀ x ∈ ys, ¬key x = key y) ∧ (List.map key ys).Nodup := by
      simpa using hnd
    rcases List.mem_cons.mp ha with h1 | h1
    · subst h1
      rw [List.filter_cons, if_pos (by simp)]
      have h0 : ys.filter (fun x => decide (key x = key a)) = [] := by
        rw [List.filter_eq_nil_iff]
        intro x hx
        simp only [decide_eq_true_eq]
        exact hnd2.1 x hx
      rw [h0]
    · have hne : ¬(decide (key y = key a) = true) := by
        simp only [decide_eq_true_eq]
        intro he
        exact hnd2.1 a h1 he.symm
      rw [List.filter_cons, if_neg hne]
      exact ih hnd2.2 h1

/-- C3: when the Aggregator succeeds, the final output has exactly one
record per distinct Competitor URL of the filtered table: its length is
the number of distinct Competitor URL values, its Competitor URLs are
pairwise distinct, and the trailing deduplication by Competitor URL
removes nothing. -/
theorem aggregate_completeness (l : List Record) (out : List OutRecord)
    (h : aggregateAll l = Except.ok out) :
    out.length = ((l.map (fun r => r.competitorURL)).dedup).length ∧
    (out.map (fun o => o.competitorURL)).Nodup ∧
    dropDupURL out = out := by
  obtain ⟨hurl, _⟩ := aggregateAll_ok_struct h
  have hnd : (out.map (fun o => o.competitorURL)).Nodup := by
    rw [hurl]; exact sortedKeys_nodup _ _
  refine ⟨?_, hnd,
    keepFirstBy_eq_self (fun o : OutRecord => o.competitorURL) out [] hnd
      (fun x _ => List.not_mem_nil _)⟩
  have h1 : out.length = (out.map (fun o => o.competitorURL)).length :=
    (List.length_map _ _).symm
  rw [h1, hurl]
  exact (List.perm_insertionSort strLe _).length_eq

/-- witness for aggregate_completeness on the one-row table. -/
theorem aggregate_completeness_witness :
    aggregateAll [wRec1] = Except.ok [wOut1] ∧
    ([wOut1].length = (([wRec1].map (fun r => r.competitorURL)).dedup).length ∧
      ([wOut1].map (fun o => o.competitorURL)).Nodup ∧
      dropDupURL [wOut1] = [wOut1]) := by
  have h : aggregateAll [wRec1] = Except.ok [wOut1] := by with_unfolding_all rfl
  exact ⟨h, aggregate_completeness [wRec1] [wOut1] h⟩

/-- C5: regrouping the Aggregator output by Competitor URL makes every
output row its own singleton group in unchanged order, and deduplicating
it by Competitor URL is the identity: re-running the Aggregator merges
nothing because the output URLs are already unique. -/
theorem aggregate_idempotent (l : List Record) (out : List OutRecord)
    (h : aggregateAll l = Except.ok out) :
    groupPairs (fun o => o.competitorURL) out = out.map (fun o => (o.competitorURL, [o])) ∧
    dropDupURL out = out ∧
    (out.map (fun o => o.competitorURL)).Nodup := by
  obtain ⟨hurl, _⟩ := aggregateAll_ok_struct h
  have hnd : (out.map (fun o => o.competitorURL)).Nodup := by
    rw [hurl]; exact sortedKeys_nodup _ _
  have hsorted : (out.map (fun o => o.competitorURL)).Pairwise strLe := by
    rw [hurl]; exact sortedKeys_sorted _ _
  refine ⟨?_, keepFirstBy_eq_self (fun o : OutRecord => o.competitorURL) out [] hnd
    (fun x _ => List.not_mem_nil _), hnd⟩
  have hkeys : sortedKeys (fun o : OutRecord => o.competitorURL) out =
      out.map (fun o => o.competitorURL) := by
    unfold sortedKeys
    rw [List.dedup_eq_self.mpr hnd]
    haveI : IsAntisymm String strLe :=
      ⟨fun a b h1 h2 => strKey_injective (le_antisymm h1 h2)⟩
    haveI : IsTotal String strLe := ⟨fun a b => le_total (strKey a) (strKey b)⟩
    haveI : IsTrans String strLe := ⟨fun _ _ _ h1 h2 => le_trans h1 h2⟩
    exact List.eq_of_perm_of_sorted (List.perm_insertionSort strLe _)
      (List.sorted_insertionSort strLe _) hsorted
  unfold groupPairs
  rw [hkeys, List.map_map]
  apply List.map_congr_left
  intro o ho
  show (o.competitorURL,
    out.filter (fun x => decide (x.competitorURL = o.competitorURL))) = (o.competitorURL, [o])
  rw [filter_eq_singleton_of_nodup (fun o : OutRecord => o.competitorURL) hnd ho]

/-- witness for aggregate_idempotent on the one-row table. -/
theorem aggregate_idempotent_witness :
    aggregateAll [wRec1] = Except.ok [wOut1] ∧
    (groupPairs (fun o => o.competitorURL) [wOut1] =
        [wOut1].map (fun o => (o.competitorURL, [o])) ∧
      dropDupURL [wOut1] = [wOut1] ∧
      ([wOut1].map (fun o => o.competitorURL)).Nodup) := by
  have h : aggregateAll [wRec1] = Except.ok [wOut1] := by with_unfolding_all rfl
  exact ⟨h, aggregate_idempotent [wRec1] [wOut1] h⟩

/-- C6: each output row of a successful Aggregator carries, as Search
Volume, the sum of Search Volume over its group with null read as 0, and,
as Keyword Difficulty, the mean over the non-null Keyword Difficulty
values of its group rounded to two decimals (null when the group has no
non-null value, where pandas stores NaN). -/
theorem aggregate_sum_mean (l : List Record) (out : List OutRecord)
    (h : aggregateAll l = Except.ok out) :
    ∀ o ∈ out,
      o.searchVolume =
        ((l.filter (fun r => decide (r.competitorURL = o.competitorURL))).map
          (fun r => r.searchVolume.getD 0)).sum ∧
      o.keywordDifficulty =
        (if (l.filter (fun r => decide (r.competitorURL = o.competitorURL))).filterMap
            (fun r => r.keywordDifficulty) = [] then none
         else some (pyRound2
          (((l.filter (fun r => decide (r.competitorURL = o.competitorURL))).filterMap
              (fun r => r.keywordDifficulty)).sum /
            (((l.filter (fun r => decide (r.competitorURL = o.competitorURL))).filterMap
              (fun r => r.keywordDifficulty)).length : ℚ)))) := by
  intro o ho
  obtain ⟨_, hmem⟩ := aggregateAll_ok_struct h
  rcases hmem o ho with ⟨kg, hkg, hok⟩
  rcases aggGroup_ok hok with ⟨top, _, hoeq⟩
  obtain ⟨_, hg⟩ := mem_groupPairs (fun r : Record => r.competitorURL) l hkg
  have hg2 : kg.2 = l.filter (fun r => decide (r.competitorURL = kg.1)) := hg
  have hurl : o.competitorURL = kg.1 := by rw [hoeq]; rfl
  rw [hurl, ← hg2, hoeq]
  constructor
  · rfl
  · cases he : kg.2.filterMap (fun r => r.keywordDifficulty) with
    | nil => simp [mkOut, he]
    | cons x xs => simp [mkOut, he]

/-- witness for aggregate_sum_mean on the one-row table. -/
theorem aggregate_sum_mean_witness :
    aggregateAll [wRec1] = Except.ok [wOut1] ∧
    (∀ o ∈ [wOut1],
      o.searchVolume =
        (([wRec1].filter (fun r => decide (r.competitorURL = o.competitorURL))).map
          (fun r => r.searchVolume.getD 0)).sum ∧
      o.keywordDifficulty =
        (if ([wRec1].filter (fun r => decide (r.competitorURL = o.competitorURL))).filterMap
            (fun r => r.keywordDifficulty) = [] then none
         else some (pyRound2
          ((([wRec1].filter (fun r => decide (r.competitorURL = o.competitorURL))).filterMap
              (fun r => r.keywordDifficulty)).sum /
            ((([wRec1].filter (fun r => decide (r.competitorURL = o.competitorURL))).filterMap
              (fun r => r.keywordDifficulty)).length : ℚ))))) := by
  have h : aggregateAll [wRec1] = Except.ok [wOut1] := by with_unfolding_all rfl
  exact ⟨h, aggregate_sum_mean [wRec1] [wOut1] h⟩

/-- C4: each output row of a successful Aggregator takes its Topic from
the top-search-volume row of its group; Domain Info scans the entire
filtered table for rows whose Keyword and Domain equal those of that top
row with positive Domain Position, formats each match and joins them with
a comma separator (empty when no row matches); and the row is marked
Optimization exactly when Domain Info is non-empty, and Creation
otherwise. -/
theorem domains_info_spec (l : List Record) (out : List OutRecord)
    (h : aggregateAll l = Except.ok out) :
    ∀ o ∈ out, ∃ top,
      idxmaxSV (l.filter (fun r => decide (r.competitorURL = o.competitorURL))) = some top ∧
      o.topic = top.keyword ∧
      (∀ r : Record, matchRow top r = true ↔
        (r.keyword = top.keyword ∧ r.domain = top.domain ∧
          ∃ dp, r.domainPosition = some dp ∧ 0 < dp)) ∧
      o.domainsInfo = String.intercalate (", ") ((l.filter (matchRow top)).map fmtRow) ∧
      (l.filter (matchRow top) = [] → o.domainsInfo = ("")) ∧
      (o.creationOpt = ("Optimization") ↔ o.domainsInfo ≠ ("")) ∧
      (o.domainsInfo = ("") → o.creationOpt = ("Creation")) := by
  intro o ho
  obtain ⟨_, hmem⟩ := aggregateAll_ok_struct h
  rcases hmem o ho with ⟨kg, hkg, hok⟩
  rcases aggGroup_ok hok with ⟨top, htop, hoeq⟩
  obtain ⟨_, hg⟩ := mem_groupPairs (fun r : Record => r.competitorURL) l hkg
  have hg2 : kg.2 = l.filter (fun r => decide (r.competitorURL = kg.1)) := hg
  have hurl : o.competitorURL = kg.1 := by rw [hoeq]; rfl
  refine ⟨top, ?_, ?_, ?_, ?_, ?_, ?_, ?_⟩
  · rw [hurl, ← hg2]; exact htop
  · rw [hoeq]; rfl
  · intro r
    unfold matchRow dpPosB
    rcases hdp : r.domainPosition with _ | dp <;> simp [hdp, and_assoc]
  · rw [hoeq]
    cases hr : l.filter (matchRow top) with
    | nil =>
      simp [mkOut, get_domain_info, hr]
      rfl
    | cons x xs => simp [mkOut, get_domain_info, hr]
  · intro hnil
    rw [hoeq]
    simp [mkOut, get_domain_info, hnil]
  · rw [hoeq]
    show (if get_domain_info top l = "" then ("Creation") else ("Optimization")) =
        ("Optimization") ↔ get_domain_info top l ≠ ("")
    by_cases hi : get_domain_info top l = ("")
    · rw [if_pos hi]
      simp [hi]
    · rw [if_neg hi]
      simp [hi]
  · rw [hoeq]
    intro hi
    have hi2 : get_domain_info top l = ("") := hi
    show (if get_domain_info top l = ("") then ("Creation") else ("Optimization")) =
      ("Creation")
    rw [if_pos hi2]

/-- witness for domains_info_spec on the one-row table. -/
theorem domains_info_spec_witness :
    aggregateAll [wRec1] = Except.ok [wOut1] ∧
    (∀ o ∈ [wOut1], ∃ top,
      idxmaxSV ([wRec1].filter (fun r => decide (r.competitorURL = o.competitorURL)))
          = some top ∧
      o.topic = top.keyword ∧
      (∀ r : Record, matchRow top r = true ↔
        (r.keyword = top.keyword ∧ r.domain = top.domain ∧
          ∃ dp, r.domainPosition = some dp ∧ 0 < dp)) ∧
      o.domainsInfo = String.intercalate (", ")
        (([wRec1].filter (matchRow top)).map fmtRow) ∧
      ([wRec1].filter (matchRow top) = [] → o.domainsInfo = ("")) ∧
      (o.creationOpt = ("Optimization") ↔ o.domainsInfo ≠ ("")) ∧
      (o.domainsInfo = ("") → o.creationOpt = ("Creation"))) := by
  have h : aggregateAll [wRec1] = Except.ok [wOut1] := by with_unfolding_all rfl
  exact ⟨h, domains_info_spec [wRec1] [wOut1] h⟩

/-- the row idxmax selects belongs to the group. -/
theorem idxmaxSV_mem {g : List Record} {top : Record}
    (h : idxmaxSV g = some top) : top ∈ g := by
  unfold idxmaxSV at h
  cases hm : (g.filterMap (fun r => r.searchVolume)).max? with
  | none => rw [hm] at h; exact Option.noConfusion h
  | some m =>
    rw [hm] at h
    exact List.mem_of_find?_eq_some h

/-- after the Deduplicator, keywords are pairwise distinct. -/
theorem dedupStage_keyword_nodup (l : List Record) :
    ((dedupStage l).map Record.keyword).Nodup := by
  unfold dedupStage
  rw [List.map_map]
  exact keepFirstBy_nodup (fun p : ℕ × Record => p.2.keyword) _ []

/-- Ranker/Filter preserves keyword distinctness. -/
theorem filterStage_keyword_nodup {l : List Record}
    (hnd : (l.map Record.keyword).Nodup) :
    ((filterStage l).map Record.keyword).Nodup := by
  have h1 : ((sort_search_volume l).map Record.keyword).Nodup :=
    (((sort_search_volume_perm l).map Record.keyword).symm).nodup hnd
  exact List.Nodup.sublist
    (List.Sublist.map Record.keyword (List.filter_sublist _)) h1

/-- in a keyword-distinct table, rows with equal keywords are equal. -/
theorem eq_of_nodup_map_keyword {l : List Record}
    (hnd : (l.map Record.keyword).Nodup) {a b : Record}
    (ha : a ∈ l) (hb : b ∈ l) (hk : a.keyword = b.keyword) : a = b := by
  induction l with
  | nil => exact absurd ha (List.not_mem_nil a)
  | cons y ys ih =>
    have hnd2 : (∀ x ∈ ys, ¬x.keyword = y.keyword) ∧ (ys.map Record.keyword).Nodup := by
      simpa using hnd
    rcases List.mem_cons.mp ha with h1 | h1 <;> rcases List.mem_cons.mp hb with h2 | h2
    · rw [h1, h2]
    · subst h1; exact absurd hk.symm (hnd2.1 b h2)
    · subst h2; exact absurd hk (hnd2.1 a h1)
    · exact ih hnd2.2 h1 h2

/-- a distinct list whose members all equal a member is that singleton. -/
theorem eq_singleton_of_nodup {α : Type} {l : List α} (hnd : l.Nodup) {a : α}
    (ha : a ∈ l) (hall : ∀ x ∈ l, x = a) : l = [a] := by
  cases l with
  | nil => exact absurd ha (List.not_mem_nil a)
  | cons y ys =>
    have hy : y = a := hall y (List.mem_cons_self _ _)
    subst hy
    cases ys with
    | nil => rfl
    | cons z zs =>
      have hz : z = y := hall z (List.mem_cons_of_mem _ (List.mem_cons_self _ _))
      have hni : y ∉ z :: zs := (List.nodup_cons.mp hnd).1
      exact absurd (by rw [hz]; exact List.mem_cons_self _ _) hni

/-- the formatted Domain Info entry is never the empty string. -/
theorem fmtRow_ne_empty (r : Record) : fmtRow r ≠ ("") := by
  intro h
  have h2 := congrArg String.length h
  unfold fmtRow at h2
  simp only [String.length_append] at h2
  have e1 : (" (" : String).length = 2 := rfl
  have e2 : ("" : String).length = 0 := rfl
  rw [e1, e2] at h2
  omega

/-- C10: through the whole pipeline the Deduplicator leaves at most one
row per keyword, so the Domain Info lookup of a group can match at most
the top row of that group itself: the match set is the top row exactly
when its Domain Position is positive and empty otherwise, Domain Info is
the single formatted entry or the empty string accordingly, and the row is
marked Optimization exactly when the top row has positive Domain
Position. -/
theorem single_match_per_group (l0 : List Record) (out : List OutRecord)
    (h : processRecords l0 = Except.ok out) :
    ∀ o ∈ out, ∃ top,
      idxmaxSV ((filterStage (dedupStage l0)).filter
        (fun r => decide (r.competitorURL = o.competitorURL))) = some top ∧
      (filterStage (dedupStage l0)).filter (matchRow top) =
        (if dpPosB top then [top] else []) ∧
      o.domainsInfo = (if dpPosB top then fmtRow top else ("")) ∧
      (dpPosB top = true ↔ ∃ dp, top.domainPosition = some dp ∧ 0 < dp) ∧
      (o.creationOpt = ("Optimization") ↔ dpPosB top = true) := by
  intro o ho
  have hagg : aggregateAll (filterStage (dedupStage l0)) = Except.ok out := h
  obtain ⟨_, hmem⟩ := aggregateAll_ok_struct hagg
  rcases hmem o ho with ⟨kg, hkg, hok⟩
  rcases aggGroup_ok hok with ⟨top, htop, hoeq⟩
  obtain ⟨_, hg⟩ := mem_groupPairs
    (fun r : Record => r.competitorURL) (filterStage (dedupStage l0)) hkg
  have hg2 : kg.2 = (filterStage (dedupStage l0)).filter
      (fun r => decide (r.competitorURL = kg.1)) := hg
  have hurl : o.competitorURL = kg.1 := by rw [hoeq]; rfl
  have hkwnd : ((filterStage (dedupStage l0)).map Record.keyword).Nodup :=
    filterStage_keyword_nodup (dedupStage_keyword_nodup l0)
  have hlnd : (filterStage (dedupStage l0)).Nodup :=
    List.Nodup.of_map Record.keyword hkwnd
  have htopg : top ∈ kg.2 := idxmaxSV_mem htop
  have htopl : top ∈ filterStage (dedupStage l0) := by
    rw [hg2] at htopg
    exact (List.mem_filter.mp htopg).1
  have hmatch : (filterStage (dedupStage l0)).filter (matchRow top) =
      (if dpPosB top then [top] else []) := by
    cases hdp : dpPosB top with
    | false =>
      rw [if_neg (by simp [hdp])]
      rw [List.filter_eq_nil_iff]
      intro r hr hmr
      have hc : r.keyword = top.keyword ∧ r.domain = top.domain ∧ dpPosB r = true := by
        simpa [matchRow, and_assoc] using hmr
      have hre : r = top := eq_of_nodup_map_keyword hkwnd hr htopl hc.1
      rw [hre] at hc
      rw [hc.2.2] at hdp
      exact Bool.noConfusion hdp
    | true =>
      have htm : top ∈ (filterStage (dedupStage l0)).filter (matchRow top) := by
        rw [List.mem_filter]
        exact ⟨htopl, by simp [matchRow, hdp]⟩
      have hfnd : ((filterStage (dedupStage l0)).filter (matchRow top)).Nodup :=
        List.Nodup.sublist (List.filter_sublist _) hlnd
      have hall : ∀ x ∈ (filterStage (dedupStage l0)).filter (matchRow top), x = top := by
        intro x hx
        rcases List.mem_filter.mp hx with ⟨hxl, hxm⟩
        have hc : x.keyword = top.keyword ∧ x.domain = top.domain ∧ dpPosB x = true := by
          simpa [matchRow, and_assoc] using hxm
        exact eq_of_nodup_map_keyword hkwnd hxl htopl hc.1
      rw [eq_singleton_of_nodup hfnd htm hall]
      simp
  have hinfo : get_domain_info top (filterStage (dedupStage l0)) =
      (if dpPosB top then fmtRow top else ("")) := by
    cases hdp : dpPosB top with
    | false =>
      rw [hdp] at hmatch
      rw [if_neg (by simp)] at hmatch
      simp [get_domain_info, hmatch, hdp]
    | true =>
      rw [hdp] at hmatch
      rw [if_pos rfl] at hmatch
      simp [get_domain_info, hmatch, hdp]
      rfl
  refine ⟨top, ?_, hmatch, ?_, ?_, ?_⟩
  · rw [hurl, ← hg2]; exact htop
  · rw [hoeq]
    show get_domain_info top (filterStage (dedupStage l0)) =
      (if dpPosB top then fmtRow top else (""))
    exact hinfo
  · unfold dpPosB
    rcases hdp : top.domainPosition with _ | dp <;> simp [hdp]
  · rw [hoeq]
    show (if get_domain_info top (filterStage (dedupStage l0)) = ("")
        then ("Creation") else ("Optimization")) = ("Optimization") ↔ dpPosB top = true
    cases hdp : dpPosB top with
    | false =>
      rw [hdp] at hinfo
      rw [if_neg (by simp)] at hinfo
      rw [if_pos hinfo]
      simp [hdp]
    | true =>
      rw [hdp] at hinfo
      rw [if_pos rfl] at hinfo
      have hne : get_domain_info top (filterStage (dedupStage l0)) ≠ ("") := by
        rw [hinfo]; exact fmtRow_ne_empty top
      rw [if_neg hne]
      simp [hdp]

/-- witness for single_match_per_group on the one-row pipeline. -/
theorem single_match_per_group_witness :
    processRecords [wRec1] = Except.ok [wOut1] ∧
    (∀ o ∈ [wOut1], ∃ top,
      idxmaxSV ((filterStage (dedupStage [wRec1])).filter
        (fun r => decide (r.competitorURL = o.competitorURL))) = some top ∧
      (filterStage (dedupStage [wRec1])).filter (matchRow top) =
        (if dpPosB top then [top] else []) ∧
      o.domainsInfo = (if dpPosB top then fmtRow top else ("")) ∧
      (dpPosB top = true ↔ ∃ dp, top.domainPosition = some dp ∧ 0 < dp) ∧
      (o.creationOpt = ("Optimization") ↔ dpPosB top = true)) := by
  have h : processRecords [wRec1] = Except.ok [wOut1] := by with_unfolding_all rfl
  exact ⟨h, single_match_per_group [wRec1] [wOut1] h⟩

/-- membership in the folded column union. -/
theorem unionCols_mem_aux (c : String) :
    ∀ (ts : List RawTable) (acc : List String),
      (c ∈ ts.foldl (fun acc t => acc ++ t.cols.filter (fun c2 => decide (c2 ∉ acc))) acc ↔
        c ∈ acc ∨ ∃ t ∈ ts, c ∈ t.cols) := by
  intro ts
  induction ts with
  | nil => intro acc; simp
  | cons t ts2 ih =>
    intro acc
    rw [List.foldl_cons, ih]
    constructor
    · rintro (hc | ⟨t2, ht2, hcc⟩)
      · rcases List.mem_append.mp hc with h1 | h1
        · exact Or.inl h1
        · rcases List.mem_filter.mp h1 with ⟨h2, _⟩
          exact Or.inr ⟨t, List.mem_cons_self _ _, h2⟩
      · exact Or.inr ⟨t2, List.mem_cons_of_mem _ ht2, hcc⟩
    · rintro (hc | ⟨t2, ht2, hcc⟩)
      · exact Or.inl (List.mem_append.mpr (Or.inl hc))
      · rcases List.mem_cons.mp ht2 with h1 | h1
        · subst h1
          by_cases ha : c ∈ acc
          · exact Or.inl (List.mem_append.mpr (Or.inl ha))
          · refine Or.inl (List.mem_append.mpr (Or.inr ?_))
            rw [List.mem_filter]
            exact ⟨hcc, by simpa using ha⟩
        · exact Or.inr ⟨t2, h1, hcc⟩

/-- indexing into a flattened list of lists at a block offset. -/
theorem flatten_index {α : Type} :
    ∀ (L : List (List α)) (i : ℕ) (l : List α), L[i]? = some l →
      ∀ j, j < l.length →
        L.flatten[(((L.take i).map List.length).sum + j)]? = l[j]? := by
  intro L
  induction L with
  | nil =>
    intro i l hl
    rw [List.getElem?_nil] at hl
    exact Option.noConfusion hl
  | cons x xs ih =>
    intro i l hl j hj
    cases i with
    | zero =>
      rw [List.getElem?_cons_zero] at hl
      injection hl with hl2
      subst hl2
      simp only [List.take_zero, List.map_nil, List.sum_nil, Nat.zero_add]
      rw [List.flatten_cons, List.getElem?_append, if_pos hj]
    | succ i2 =>
      rw [List.getElem?_cons_succ] at hl
      have hrec := ih i2 l hl j hj
      rw [List.take_succ_cons, List.map_cons, List.sum_cons, List.flatten_cons,
        Nat.add_assoc, List.getElem?_append_right (Nat.le_add_right _ _),
        Nat.add_sub_cancel_left]
      exact hrec

/-- a raw row without a column reads null there. -/
theorem getCell_null {row : RawRow} {c : String} (h : ∀ p ∈ row, p.1 ≠ c) :
    getCell row c = Cell.null := by
  unfold getCell
  cases hf : row.find? (fun p => decide (p.1 = c)) with
  | none => rfl
  | some p =>
    exact absurd (by simpa using List.find?_some hf)
      (h p (List.mem_of_find?_eq_some hf))

/-- C7: the Merger output has as many rows as all inputs together, its
column set is the union of the input column sets, each input block keeps
its row order at its input-order offset, and a merged row lacking some
merged column reads null in it. -/
theorem merge_completeness (ts : List RawTable) :
    (concatTables ts).rows.length = (ts.map (fun t => t.rows.length)).sum ∧
    (∀ c, c ∈ (concatTables ts).cols ↔ ∃ t ∈ ts, c ∈ t.cols) ∧
    (∀ (i : ℕ) (t : RawTable), ts[i]? = some t → ∀ (j : ℕ), j < t.rows.length →
      (concatTables ts).rows[(((ts.take i).map (fun u => u.rows.length)).sum + j)]? =
        t.rows[j]?) ∧
    (∀ row ∈ (concatTables ts).rows, ∀ c, (∀ p ∈ row, p.1 ≠ c) →
      getCell row c = Cell.null) := by
  refine ⟨?_, ?_, ?_, ?_⟩
  · show ((ts.map (fun t => t.rows)).flatten).length = _
    rw [List.length_flatten, List.map_map]
    rfl
  · intro c
    have h1 := unionCols_mem_aux c ts []
    constructor
    · intro hc
      rcases h1.mp hc with h2 | h2
      · exact absurd h2 (List.not_mem_nil c)
      · exact h2
    · intro hc
      exact h1.mpr (Or.inr hc)
  · intro i t ht j hj
    have h2 : (ts.map (fun t => t.rows))[i]? = some t.rows := by
      rw [List.getElem?_map, ht]
      rfl
    have h3 := flatten_index (ts.map (fun t => t.rows)) i t.rows h2 j hj
    have h4 : ((ts.map (fun t => t.rows)).take i).map List.length =
        (ts.take i).map (fun u => u.rows.length) := by
      rw [← List.map_take, List.map_map]
      rfl
    rw [h4] at h3
    exact h3
  · intro row _ c hc
    exact getCell_null hc

/-- witness for merge_completeness on two one-row inputs with different
columns. -/
theorem merge_completeness_witness :
    (concatTables [wT1, wT2]).rows.length = ([wT1, wT2].map (fun t => t.rows.length)).sum ∧
    (("Domain") ∈ (concatTables [wT1, wT2]).cols ↔ ∃ t ∈ [wT1, wT2], ("Domain") ∈ t.cols) ∧
    (concatTables [wT1, wT2]).rows[((([wT1, wT2].take 1).map
        (fun u => u.rows.length)).sum + 0)]? = wT2.rows[0]? ∧
    getCell wRow1 ("Domain") = Cell.null :=
  ⟨(merge_completeness [wT1, wT2]).1,
   (merge_completeness [wT1, wT2]).2.1 ("Domain"),
   (merge_completeness [wT1, wT2]).2.2.1 1 wT2 rfl 0 (by decide),
   (merge_completeness [wT1, wT2]).2.2.2 wRow1 (by decide) ("Domain") (by decide)⟩

/-- C8: the two validation gates are independent and report distinctly:
the first gate requires exactly the six contract columns, of which
Competitor Position is not one, and on failure reports the exact missing
set and stops; when it passes but Competitor Position is absent the second
gate stops with its own error; the two error constructors are distinct,
and in both cases the run ends in an error, never in an output table. -/
theorem validation_gates :
    required_columns = ["Keyword", "Search Volume", "Keyword Difficulty", "Domain",
      "Domain Position", "Competitor URL"] ∧
    ("Competitor Position") ∉ required_columns ∧
    (∀ ts : List RawTable, missingOf ts ≠ [] →
      runPipeline ts = Except.error (PipeError.missingColumns (missingOf ts))) ∧
    (∀ ts : List RawTable, missingOf ts = [] →
      ("Competitor Position") ∉ (concatTables ts).cols →
        runPipeline ts = Except.error PipeError.missingCompetitorPosition) ∧
    (∀ cols : List String,
      PipeError.missingColumns cols ≠ PipeError.missingCompetitorPosition) := by
  refine ⟨rfl, by decide, ?_, ?_, ?_⟩
  · intro ts hm
    unfold runPipeline
    rw [if_neg (fun hc => hm (List.isEmpty_iff.mp hc))]
  · intro ts hm hcp
    unfold runPipeline
    rw [if_pos (List.isEmpty_iff.mpr hm), if_neg hcp]
  · intro cols h2
    exact PipeError.noConfusion h2

/-- witness for validation_gates on concrete failing inputs. -/
theorem validation_gates_witness :
    runPipeline [wMissT] = Except.error (PipeError.missingColumns (missingOf [wMissT])) ∧
    runPipeline [wNoCP] = Except.error PipeError.missingCompetitorPosition :=
  ⟨validation_gates.2.2.1 [wMissT] (by decide),
   validation_gates.2.2.2.1 [wNoCP] (by decide) (by decide)⟩

/-- C9: on an input whose only group carries a null Search Volume in every
row, the row passes deduplication and filtering, idxmax has no non-null
value to select and the Aggregator aborts with the idxmax error, so the
pipeline produces no final table for this input. -/
theorem idxmax_all_null_aborts :
    (toRecord rowNullSV).searchVolume = none ∧
    filterStage (dedupStage [toRecord rowNullSV]) = [toRecord rowNullSV] ∧
    idxmaxSV [toRecord rowNullSV] = none ∧
    aggregateAll [toRecord rowNullSV] = Except.error PipeError.svAllNull ∧
    runPipeline [tblNullSV] = Except.error PipeError.svAllNull := by
  refine ⟨rfl, by decide, rfl, by with_unfolding_all rfl, by with_unfolding_all rfl⟩
